import Mathlib

/-!
Verification of the fixture/snapshot/diff test harness in `gittip/testing.py`.

The development shallowly embeds the harness core:

* Python dicts become association lists (`List (key × value)`) whose lookup
  returns the first binding; real Python dicts never carry duplicate keys, so
  theorems that depend on key uniqueness take explicit `Nodup` hypotheses.
* Stateful database calls become explicit data: the result set of a query is a
  parameter, an executed statement is a value of type `Stmt`, and a raised
  Python exception is the `Except.error` branch of the translated function.
* Python `sorted` on strings becomes an insertion sort over the code-point
  lexicographic order on `String.data` (Python 2 compares strings
  byte/code-point lexicographically).
-/

namespace Gittip

/-- Cell values stored in a database row, compared with exact equality just as
the Python code compares them with `!=`. -/
inductive Value where
  | int : Int → Value
  | str : String → Value
  | dec : Int → Value
  | null : Value
deriving DecidableEq

/-- A database row: a Python dict mapping column name to value. -/
abbrev Row := List (String × Value)

/-- A dumped table: a Python dict mapping primary-key value to full row. -/
abbrev Table := List (Value × Row)

/-- A snapshot (the result of `Context.dump`): a Python dict mapping table
name to dumped table. -/
abbrev Snapshot := List (String × Table)

/-- Python dict read `d[k]` / `k in d`: first binding wins. -/
def alookup {κ α : Type} [DecidableEq κ] : List (κ × α) → κ → Option α
  | [], _ => none
  | (k2, v) :: rest, k => if k2 = k then some v else alookup rest k

/-- Python dict write `d[k] = v`: replace the first binding in place, or
append a new binding at the end. -/
def dictInsert {κ α : Type} [DecidableEq κ] : List (κ × α) → κ → α → List (κ × α)
  | [], k, v => [(k, v)]
  | (k2, v2) :: rest, k, v =>
    if k2 = k then (k, v) :: rest else (k2, v2) :: dictInsert rest k v

/-- The keys of an association list are pairwise distinct (always true of a
real Python dict). -/
abbrev nodupKeys {κ α : Type} (xs : List (κ × α)) : Prop := (xs.map Prod.fst).Nodup

/-- All dict levels of a snapshot have distinct keys: distinct table names,
distinct primary-key values per table, distinct column names per row. -/
abbrev snapWF (s : Snapshot) : Prop :=
  nodupKeys s ∧ ∀ p ∈ s, nodupKeys p.2 ∧ ∀ q ∈ p.2, nodupKeys q.2

/-! ### Sorting (Python `sorted`)

Python 2 `sorted` over strings orders them lexicographically by code point.
`String.decidableLE` does not reduce in the kernel, so we use our own
lexicographic comparison on `String.data` together with an insertion sort. -/

/-- Lexicographic less-or-equal on char lists (code-point order). -/
def charListLe : List Char → List Char → Bool
  | [], _ => true
  | _ :: _, [] => false
  | a :: as, b :: bs =>
    if a < b then true
    else if b < a then false
    else charListLe as bs

/-- Lexicographic less-or-equal on strings, as Python 2 compares `str`. -/
def strLe (x y : String) : Bool := charListLe x.data y.data

/-- Insert an element into a list directly before the first element it
compares less-or-equal to. -/
def insertSorted {α : Type} (le : α → α → Bool) (x : α) : List α → List α
  | [] => [x]
  | y :: ys => if le x y then x :: y :: ys else y :: insertSorted le x ys

/-- Insertion sort; agrees with Python `sorted` whenever `le` is a total
order on the list elements (in our uses, distinct dict keys). -/
def isort {α : Type} (le : α → α → Bool) : List α → List α
  | [] => []
  | x :: xs => insertSorted le x (isort le xs)

/-- Python `sorted(snapshot.keys())`, used by the diff schema-drift check. -/
def sortedKeys (s : Snapshot) : List String := isort strLe (s.map Prod.fst)

/-! ### Diff engine (`Context._diff`, source lines 173-217) -/

/-- Errors the diff can raise: the failed `assert` guarding against DDL
between snapshots (line 178), and Python `KeyError` from a dict lookup. -/
inductive DiffError where
  | schemaDrift : DiffError
  | keyError : String → DiffError
deriving DecidableEq

/-- Non-compact per-table diff entry (`inserts`/`updates`/`deletes` lists). -/
structure TableDiff where
  inserts : List Row
  updates : List Row
  deletes : List Row
deriving DecidableEq

/-- A per-table entry of the diff output: either the three row lists or, in
compact mode, the three lengths. -/
inductive TableOut where
  | full : TableDiff → TableOut
  | compactCounts : List Nat → TableOut
deriving DecidableEq

/-- Diff output: dict from table name to per-table entry. -/
abbrev DiffOut := List (String × TableOut)

/-- The inner update-building loop (source lines 191-194): walk the columns
of the row from snapshot B, look each one up in the corresponding row from
snapshot A (`a_table[key][colname]`, a `KeyError` when absent), and record
the columns whose values differ. -/
def buildUpdate (aRow : Row) : List (String × Value) → Row → Except DiffError Row
  | [], update => Except.ok update
  | (colname, value) :: rest, update =>
    match alookup aRow colname with
    | none => Except.error (DiffError.keyError colname)
    | some v2 =>
      if v2 = value then buildUpdate aRow rest update
      else buildUpdate aRow rest (dictInsert update colname value)

/-- The loop over `b_table.items()` (source lines 187-198): a key absent from
A's table is an insert carrying B's full row; a key present in both gets its
update record built, and a non-empty update record has the primary-key column
appended (`update[pkey] = row[pkey]`) before being collected. -/
def processB (aT : Table) (pkeys : List (String × String)) (tname : String) :
    List (Value × Row) → List Row → List Row → Except DiffError (List Row × List Row)
  | [], ins, upds => Except.ok (ins, upds)
  | (key, row) :: rest, ins, upds =>
    match alookup aT key with
    | none => processB aT pkeys tname rest (ins ++ [row]) upds
    | some aRow =>
      match buildUpdate aRow row [] with
      | Except.error e => Except.error e
      | Except.ok update =>
        if update = [] then processB aT pkeys tname rest ins upds
        else
          match alookup pkeys tname with
          | none => Except.error (DiffError.keyError tname)
          | some pkey =>
            match alookup row pkey with
            | none => Except.error (DiffError.keyError pkey)
            | some pv =>
              processB aT pkeys tname rest ins (upds ++ [dictInsert update pkey pv])

/-- The loop over `a_table.items()` (source lines 200-202): a key absent from
B's table is a delete carrying A's full row. -/
def collectDeletes (aT bT : Table) : List Row :=
  (aT.filter fun p => (alookup bT p.1).isNone).map Prod.snd

/-- The loop over `b.items()` (source lines 180-215): per table, compute
inserts, updates and deletes, and emit an output entry only when at least one
of the three is non-empty; compact mode emits the three lengths instead. -/
def diffGo (pkeys : List (String × String)) (a : Snapshot) (compact : Bool) :
    List (String × Table) → Except DiffError DiffOut
  | [] => Except.ok []
  | (tname, bT) :: rest =>
    match alookup a tname with
    | none => Except.error (DiffError.keyError tname)
    | some aT =>
      match processB aT pkeys tname bT [] [] with
      | Except.error e => Except.error e
      | Except.ok (ins, upds) =>
        let dels := collectDeletes aT bT
        match diffGo pkeys a compact rest with
        | Except.error e => Except.error e
        | Except.ok out =>
          if ins = [] ∧ upds = [] ∧ dels = [] then Except.ok out
          else if compact then
            Except.ok ((tname, TableOut.compactCounts [ins.length, upds.length, dels.length])
              :: out)
          else
            Except.ok ((tname, TableOut.full ⟨ins, upds, dels⟩) :: out)

/-- `Context._diff(a, b, compact)` (source lines 173-217).  The primary-key
mapping returned by `_get_primary_keys` is passed in as `pkeys`.  The
`assert sorted(a.keys()) == sorted(b.keys())` guard runs before any row is
classified; its failure is `DiffError.schemaDrift`. -/
def diffDumps (pkeys : List (String × String)) (a b : Snapshot) (compact : Bool) :
    Except DiffError DiffOut :=
  if sortedKeys a = sortedKeys b then diffGo pkeys a compact b
  else Except.error DiffError.schemaDrift

/-- The harness context state relevant to diffing: `self.a`, the baseline
snapshot captured at the end of `Context.__call__` (source line 157). -/
structure Context where
  a : Snapshot
deriving DecidableEq

/-- `Context.diff(compact)` (source lines 166-171): deep-copy the stored
baseline (identity on immutable values), dump the store, and compare.  The
current store contents appear as the `store` parameter; the returned
`Context` is the post-call harness state. -/
def Context.diff (pkeys : List (String × String)) (ctx : Context) (store : Snapshot)
    (compact : Bool) : Except DiffError DiffOut × Context :=
  (diffDumps pkeys ctx.a store compact, ctx)

/-- Iterate `Context.diff` some number of times, threading the harness state. -/
def Context.iterDiff (pkeys : List (String × String)) (store : Snapshot) (compact : Bool) :
    Nat → Context → Context
  | 0, ctx => ctx
  | n + 1, ctx =>
    Context.iterDiff pkeys store compact n (Context.diff pkeys ctx store compact).2

/-! ### Fixture loader (`Context.__call__`, source lines 103-158) -/

/-- One item of the flattened fixture sequence: a table-name marker (a
Python `str`), a column-to-value mapping (a `dict`), or a positional record
(a `list` or `tuple`). -/
inductive FixtureItem where
  | table : String → FixtureItem
  | record : List (String × Value) → FixtureItem
  | positional : List Value → FixtureItem
deriving DecidableEq

/-- The loader's `ValueError` cases: unknown table marker (line 126), record
before any table marker (line 130), and column name rejected by the
identifier pattern (line 140). -/
inductive LoadError where
  | unknownTable : String → LoadError
  | noTargetTable : LoadError
  | invalidColname : String → LoadError
deriving DecidableEq

/-- An executed statement: the SQL text handed to `db.execute` and the
separately-passed parameter tuple.  Values never appear in `sql`; the source
interpolates only the table name, the column-name clause and the bare
placeholder list into the SQL string (lines 152-153). -/
structure Stmt where
  sql : String
  params : List Value
deriving DecidableEq

/-- Membership in the character class of the pattern used by
`colname_re = re.compile("^[A-Za-z0-9_]+$")` (source line 83). -/
def isWordChar (c : Char) : Bool :=
  (decide ('A' ≤ c) && decide (c ≤ 'Z')) ||
  (decide ('a' ≤ c) && decide (c ≤ 'z')) ||
  (decide ('0' ≤ c) && decide (c ≤ '9')) ||
  c == '_'

/-- One or more characters, all in the identifier class. -/
def wordPlus (cs : List Char) : Bool := !cs.isEmpty && cs.all isWordChar

/-- Whether `colname_re.match(colname)` succeeds.  Python's `re` gives the
anchor a twist: a dollar matches at the end of the string and also just
before a single newline at the end of the string, so one-or-more word
characters followed by one trailing newline also match. -/
def colnameMatch (s : String) : Bool :=
  wordPlus s.data || (s.data.getLast? == some '\n' && wordPlus s.data.dropLast)

/-- A string made of one or more characters of the class, anchored at both
ends of the string; the reading of the pattern under which a dollar means
end-of-string only. -/
def colnameMatchStrict (s : String) : Bool := wordPlus s.data

/-- Order on dict items used by `sorted(row.iteritems())` (source line 138):
Python compares the `(colname, value)` tuples, which for the distinct keys of
a dict is determined by the column name alone. -/
def pairLe (p q : String × Value) : Bool := strLe p.1 q.1

/-- Python `sorted(row.iteritems())`. -/
def sortPairs (row : List (String × Value)) : List (String × Value) := isort pairLe row

/-- The validation loop over the sorted items of a record (source lines
138-143): reject the first column name failing `colname_re.match`, otherwise
collect column names and values in sorted order. -/
def buildDictCols : List (String × Value) → Except LoadError (List String × List Value)
  | [] => Except.ok ([], [])
  | (colname, value) :: rest =>
    if colnameMatch colname then
      match buildDictCols rest with
      | Except.error e => Except.error e
      | Except.ok (cs, vs) => Except.ok (colname :: cs, value :: vs)
    else Except.error (LoadError.invalidColname colname)

/-- The `', '.join(['%s'] * n)` placeholder list (source line 150). -/
def placeholders (n : Nat) : String := String.intercalate ", " (List.replicate n "%s")

/-- The SQL template `"INSERT INTO %s%sVALUES (%s)"` (source lines 152-153)
filled with table name, column clause and placeholders. -/
def insertSQL (table colClause : String) (n : Nat) : String :=
  "INSERT INTO " ++ table ++ colClause ++ "VALUES (" ++ placeholders n ++ ")"

/-- The loading loop of `Context.__call__` (source lines 119-155).  `known`
is the result of `_get_table_names`; `tname` is the current table (the
initial value is the empty string, line 117).  Returns the statements
executed, in order, and the error aborting the load when one is raised;
statements executed before the error are kept, nothing after it runs. -/
def loadGo (known : List String) : String → List FixtureItem → List Stmt × Option LoadError
  | _, [] => ([], none)
  | tname, item :: rest =>
    match item with
    | FixtureItem.table t =>
      if t ∈ known then loadGo known t rest
      else ([], some (LoadError.unknownTable t))
    | FixtureItem.record row =>
      if tname = "" then ([], some LoadError.noTargetTable)
      else
        match buildDictCols (sortPairs row) with
        | Except.error e => ([], some e)
        | Except.ok (cs, vs) =>
          let st : Stmt :=
            { sql := insertSQL tname (" (" ++ String.intercalate ", " cs ++ ") ") row.length
            , params := vs }
          let r := loadGo known tname rest
          (st :: r.1, r.2)
    | FixtureItem.positional vals =>
      if tname = "" then ([], some LoadError.noTargetTable)
      else
        let st : Stmt := { sql := insertSQL tname " " vals.length, params := vals }
        let r := loadGo known tname rest
        (st :: r.1, r.2)

/-- `Context.__call__(*data)` with the current-table register starting empty. -/
def load (known : List String) (items : List FixtureItem) : List Stmt × Option LoadError :=
  loadGo known "" items

/-! ### Reset guard (`Context._delete_data`, source lines 278-286) -/

/-- The environment variable read by the safety belt (source line 281). -/
def safetyVarName : String := "YES_PLEASE_DELETE_ALL_MY_DATA_VERY_OFTEN"

/-- The exact phrase the safety belt must equal (source line 282). -/
def safetyPhrase : String := "Pretty please, with sugar on top."

/-- The two raises guarding the truncation: Python `KeyError` when the
environment variable is absent, and the explicit `Exception("Heck.")` when
its value differs from the expected phrase. -/
inductive ResetError where
  | keyError : String → ResetError
  | heck : ResetError
deriving DecidableEq

/-- `Context._delete_data` as a store transformer: `env` is the process
environment, `store` the current table contents.  Both guards run before the
truncation loop; when they pass, every public table is truncated. -/
def deleteData (env : List (String × String)) (store : Snapshot) :
    Except ResetError Snapshot :=
  match alookup env safetyVarName with
  | none => Except.error (ResetError.keyError safetyVarName)
  | some belt =>
    if belt = safetyPhrase then Except.ok (store.map fun p => (p.1, ([] : Table)))
    else Except.error ResetError.heck

/-! ### Primary-key introspection (`Context._get_primary_keys`, lines 258-276) -/

/-- Python `s.split(sep)` for a one-character separator. -/
def splitChar (sep : Char) : List Char → List (List Char)
  | [] => [[]]
  | c :: rest =>
    let r := splitChar sep rest
    if c = sep then [] :: r
    else
      match r with
      | [] => [[c]]
      | g :: gs => (c :: g) :: gs

/-- Parse `row['indexdef'].split('(')[1].split(')')[0]` (source line 274):
the text between the first opening parenthesis and the next closing one.
`none` is the Python `IndexError` when the definition has no parenthesis. -/
def parsePkey (indexdef : String) : Option String :=
  match splitChar '(' indexdef.data with
  | _ :: second :: _ => some (String.mk ((splitChar ')' second).headD []))
  | _ => none

/-- The only exception `_get_primary_keys` can raise: `IndexError` from the
subscript on a parenthesis-free index definition. -/
inductive PkeysError where
  | indexError : PkeysError
deriving DecidableEq

/-- The accumulation loop of `_get_primary_keys` (source lines 272-275) over
the `(tablename, indexdef)` result rows of the `pg_indexes` query; a later
row for the same table overwrites the earlier binding, as dict assignment
does. -/
def getPKGo (acc : List (String × String)) :
    List (String × String) → Except PkeysError (List (String × String))
  | [] => Except.ok acc
  | (tablename, indexdef) :: rest =>
    match parsePkey indexdef with
    | none => Except.error PkeysError.indexError
    | some pkey => getPKGo (dictInsert acc tablename pkey) rest

/-- `Context._get_primary_keys` applied to the catalog query's result rows. -/
def getPrimaryKeys (rows : List (String × String)) :
    Except PkeysError (List (String × String)) :=
  getPKGo [] rows

/-! ### Statement helpers

Definitions used only to state and prove properties of the translations
above; they introduce no behaviour of their own. -/

/-- The per-column result of the update-building loop: the value a column
contributes to the update record, namely B's value when the two rows
disagree on that column. -/
def rowDiffLookup (aRow bRow : Row) (c : String) : Option Value :=
  match alookup bRow c with
  | some v => if alookup aRow c = some v then none else some v
  | none => none

/-- Whether a row of snapshot B counts as an update against table `aT`: its
key is present in `aT` and the two rows differ. -/
def rowChanged (aT : Table) (p : Value × Row) : Bool :=
  match alookup aT p.1 with
  | some ar => decide (¬ p.2 = ar)
  | none => false

/-- The inserts reported for table `t`, empty when the table has no entry. -/
def insertsOf (out : DiffOut) (t : String) : List Row :=
  match alookup out t with
  | some (TableOut.full td) => td.inserts
  | _ => []

/-- The updates reported for table `t`, empty when the table has no entry. -/
def updatesOf (out : DiffOut) (t : String) : List Row :=
  match alookup out t with
  | some (TableOut.full td) => td.updates
  | _ => []

/-- The deletes reported for table `t`, empty when the table has no entry. -/
def deletesOf (out : DiffOut) (t : String) : List Row :=
  match alookup out t with
  | some (TableOut.full td) => td.deletes
  | _ => []

/-- Replace a non-compact per-table entry by its compact counts. -/
def compactify : TableOut → TableOut
  | TableOut.full td =>
      TableOut.compactCounts [td.inserts.length, td.updates.length, td.deletes.length]
  | x => x

/-! ### Association-list lemmas -/

theorem alookup_isSome_iff {κ α : Type} [DecidableEq κ] (xs : List (κ × α)) (k : κ) :
    (alookup xs k).isSome = true ↔ k ∈ xs.map Prod.fst := by
  induction xs with
  | nil => simp [alookup]
  | cons p rest ih =>
    obtain ⟨k2, v⟩ := p
    by_cases h : k2 = k
    · subst h; simp [alookup]
    · have h2 : k ≠ k2 := fun he => h he.symm
      simp [alookup, h, ih, h2]

theorem alookup_eq_none_iff {κ α : Type} [DecidableEq κ] (xs : List (κ × α)) (k : κ) :
    alookup xs k = none ↔ k ∉ xs.map Prod.fst := by
  rw [← alookup_isSome_iff]
  cases alookup xs k <;> simp

theorem mem_of_alookup {κ α : Type} [DecidableEq κ] (xs : List (κ × α)) (k : κ) (v : α)
    (h : alookup xs k = some v) : (k, v) ∈ xs := by
  induction xs with
  | nil => simp [alookup] at h
  | cons p rest ih =>
    obtain ⟨k2, v2⟩ := p
    by_cases hk : k2 = k
    · subst hk
      rw [alookup, if_pos rfl] at h
      obtain rfl := Option.some.inj h
      exact List.mem_cons_self _ _
    · rw [alookup, if_neg hk] at h
      exact List.mem_cons_of_mem _ (ih h)

theorem alookup_of_mem {κ α : Type} [DecidableEq κ] (xs : List (κ × α)) (k : κ) (v : α)
    (hmem : (k, v) ∈ xs) (hnd : nodupKeys xs) : alookup xs k = some v := by
  induction xs with
  | nil => simp at hmem
  | cons p rest ih =>
    obtain ⟨k2, v2⟩ := p
    simp only [nodupKeys, List.map_cons, List.nodup_cons] at hnd
    rcases List.mem_cons.mp hmem with h | h
    · injection h with h1 h2
      subst h1
      subst h2
      rw [alookup, if_pos rfl]
    · have hk2 : k2 ≠ k := by
        intro he
        exact hnd.1 (he ▸ (List.mem_map.mpr ⟨(k, v), h, rfl⟩))
      rw [alookup, if_neg hk2]
      exact ih h hnd.2

theorem alookup_dictInsert {κ α : Type} [DecidableEq κ] (xs : List (κ × α)) (k : κ) (v : α)
    (k2 : κ) :
    alookup (dictInsert xs k v) k2 = if k = k2 then some v else alookup xs k2 := by
  induction xs with
  | nil => simp [dictInsert, alookup]
  | cons p rest ih =>
    obtain ⟨k3, v3⟩ := p
    by_cases h3 : k3 = k
    · subst h3
      by_cases h2 : k3 = k2
      · subst h2; simp [dictInsert, alookup]
      · simp [dictInsert, alookup, h2, if_neg (by simpa using h2)]
    · by_cases h2 : k3 = k2
      · subst h2
        have : k ≠ k3 := fun he => h3 he.symm
        simp [dictInsert, h3, alookup, this]
      · simp [dictInsert, h3, alookup, h2, ih]

theorem eq_nil_of_alookup_none {κ α : Type} [DecidableEq κ] (xs : List (κ × α))
    (h : ∀ k, alookup xs k = none) : xs = [] := by
  cases xs with
  | nil => rfl
  | cons p rest => simpa [alookup] using h p.1

theorem assoc_ext {κ α : Type} [DecidableEq κ] :
    ∀ (ar br : List (κ × α)), br.map Prod.fst = ar.map Prod.fst →
      (br.map Prod.fst).Nodup → (∀ p ∈ br, alookup ar p.1 = some p.2) → ar = br
  | [], [], _, _, _ => rfl
  | [], (q :: bs), hkeys, _, _ => by simp at hkeys
  | (p :: as), [], hkeys, _, _ => by simp at hkeys
  | (p :: as), (q :: bs), hkeys, hnd, hlk => by
    obtain ⟨k, v⟩ := p
    obtain ⟨k2, v2⟩ := q
    simp only [List.map_cons, List.cons.injEq] at hkeys
    obtain ⟨hk, hks⟩ := hkeys
    subst hk
    simp only [List.map_cons, List.nodup_cons] at hnd
    have hv : v = v2 := by
      have := hlk (k2, v2) (List.mem_cons_self _ _)
      simpa [alookup] using this
    subst hv
    have htail : as = bs := by
      refine assoc_ext as bs hks hnd.2 ?_
      intro p hp
      have hne : k2 ≠ p.1 := by
        intro he
        exact hnd.1 (he ▸ (List.mem_map.mpr ⟨p, hp, rfl⟩))
      have := hlk p (List.mem_cons_of_mem _ hp)
      simpa [alookup, hne] using this
    rw [htail]

/-! ### Order and sort lemmas -/

theorem charListLe_total : ∀ as bs : List Char, charListLe as bs = true ∨ charListLe bs as = true
  | [], _ => Or.inl rfl
  | _ :: _, [] => Or.inr rfl
  | a :: as, b :: bs => by
    rcases lt_trichotomy a b with h | h | h
    · left; simp [charListLe, h]
    · subst h
      rcases charListLe_total as bs with ih | ih
      · left; simp [charListLe, lt_irrefl, ih]
      · right; simp [charListLe, lt_irrefl, ih]
    · right; simp [charListLe, h]

theorem charListLe_antisymm : ∀ as bs : List Char,
    charListLe as bs = true → charListLe bs as = true → as = bs
  | [], [], _, _ => rfl
  | [], _ :: _, _, h2 => by simp [charListLe] at h2
  | _ :: _, [], h1, _ => by simp [charListLe] at h1
  | a :: as, b :: bs, h1, h2 => by
    rcases lt_trichotomy a b with h | h | h
    · simp [charListLe, h, not_lt_of_gt h] at h2
    · subst h
      simp only [charListLe, lt_irrefl, if_false] at h1 h2
      rw [charListLe_antisymm as bs h1 h2]
    · simp [charListLe, h, not_lt_of_gt h] at h1

theorem charListLe_trans : ∀ as bs cs : List Char,
    charListLe as bs = true → charListLe bs cs = true → charListLe as cs = true
  | [], _, _, _, _ => rfl
  | _ :: _, [], _, h1, _ => by simp [charListLe] at h1
  | _ :: _, _ :: _, [], _, h2 => by simp [charListLe] at h2
  | a :: as, b :: bs, c :: cs, h1, h2 => by
    rcases lt_trichotomy a b with hab | hab | hab
    · rcases lt_trichotomy b c with hbc | hbc | hbc
      · simp [charListLe, lt_trans hab hbc]
      · subst hbc; simp [charListLe, hab]
      · simp [charListLe, hbc, not_lt_of_gt hbc] at h2
    · subst hab
      rcases lt_trichotomy a c with hac | hac | hac
      · simp [charListLe, hac]
      · subst hac
        simp only [charListLe, lt_irrefl, if_false] at h1 h2 ⊢
        exact charListLe_trans as bs cs h1 h2
      · simp [charListLe, hac, not_lt_of_gt hac] at h2
    · simp [charListLe, hab, not_lt_of_gt hab] at h1

theorem strLe_total (x y : String) : strLe x y = true ∨ strLe y x = true :=
  charListLe_total x.data y.data

theorem strLe_antisymm (x y : String) (h1 : strLe x y = true) (h2 : strLe y x = true) :
    x = y := by
  cases x; cases y
  exact congrArg String.mk (charListLe_antisymm _ _ h1 h2)

theorem strLe_trans (x y z : String) (h1 : strLe x y = true) (h2 : strLe y z = true) :
    strLe x z = true :=
  charListLe_trans x.data y.data z.data h1 h2

theorem insertSorted_perm {α : Type} (le : α → α → Bool) (x : α) (l : List α) :
    (insertSorted le x l).Perm (x :: l) := by
  induction l with
  | nil => simp [insertSorted]
  | cons y ys ih =>
    simp only [insertSorted]
    split
    · exact List.Perm.refl _
    · exact (List.Perm.cons y ih).trans (List.Perm.swap x y ys)

theorem isort_perm {α : Type} (le : α → α → Bool) (l : List α) : (isort le l).Perm l := by
  induction l with
  | nil => exact List.Perm.refl _
  | cons x xs ih =>
    exact (insertSorted_perm le x (isort le xs)).trans (List.Perm.cons x ih)

theorem insertSorted_pairwise {α : Type} (le : α → α → Bool)
    (htot : ∀ a b, le a b = true ∨ le b a = true)
    (htrans : ∀ a b c, le a b = true → le b c = true → le a c = true)
    (x : α) (l : List α) (hl : l.Pairwise (fun a b => le a b = true)) :
    (insertSorted le x l).Pairwise (fun a b => le a b = true) := by
  induction l with
  | nil => simp [insertSorted]
  | cons y ys ih =>
    rcases List.pairwise_cons.mp hl with ⟨hy, hys⟩
    by_cases hxy : le x y = true
    · simp only [insertSorted, if_pos hxy, List.pairwise_cons]
      refine ⟨?_, hy, hys⟩
      intro z hz
      rcases List.mem_cons.mp hz with h | h
      · exact h ▸ hxy
      · exact htrans x y z hxy (hy z h)
    · have hyx : le y x = true := (htot x y).resolve_left hxy
      simp only [insertSorted, if_neg hxy, List.pairwise_cons]
      refine ⟨?_, ih hys⟩
      intro z hz
      have hz2 := (insertSorted_perm le x ys).mem_iff.mp hz
      rcases List.mem_cons.mp hz2 with h | h
      · exact h ▸ hyx
      · exact hy z h

theorem isort_pairwise {α : Type} (le : α → α → Bool)
    (htot : ∀ a b, le a b = true ∨ le b a = true)
    (htrans : ∀ a b c, le a b = true → le b c = true → le a c = true)
    (l : List α) : (isort le l).Pairwise (fun a b => le a b = true) := by
  induction l with
  | nil => simp [isort]
  | cons x xs ih => exact insertSorted_pairwise le htot htrans x (isort le xs) ih

instance : IsAntisymm String (fun x y => strLe x y = true) :=
  ⟨fun x y => strLe_antisymm x y⟩

theorem isort_strLe_canonical (xs ys : List String) (h : xs.Perm ys) :
    isort strLe xs = isort strLe ys := by
  have hperm : (isort strLe xs).Perm (isort strLe ys) :=
    ((isort_perm strLe xs).trans h).trans (isort_perm strLe ys).symm
  exact List.eq_of_perm_of_sorted hperm
    (isort_pairwise strLe strLe_total strLe_trans xs)
    (isort_pairwise strLe strLe_total strLe_trans ys)

/-! ### Update-record lemmas -/

theorem buildUpdate_ok (aRow : Row) :
    ∀ (br : List (String × Value)) (acc : Row),
      (br.map Prod.fst).Nodup →
      (∀ p ∈ br, (alookup aRow p.1).isSome = true) →
      ∃ u, buildUpdate aRow br acc = Except.ok u ∧
        ∀ c, alookup u c = Option.or (rowDiffLookup aRow br c) (alookup acc c)
  | [], acc, _, _ => by
    refine ⟨acc, rfl, ?_⟩
    intro c
    simp [rowDiffLookup, alookup, Option.or]
  | (c0, v0) :: rest, acc, hnd, hsome => by
    have h0 : (alookup aRow c0).isSome = true := hsome (c0, v0) (List.mem_cons_self _ _)
    obtain ⟨w, hw⟩ := Option.isSome_iff_exists.mp h0
    simp only [List.map_cons, List.nodup_cons] at hnd
    have hrest0 : alookup rest c0 = none :=
      (alookup_eq_none_iff rest c0).mpr hnd.1
    have hsr : ∀ p ∈ rest, (alookup aRow p.1).isSome = true := fun p hp =>
      hsome p (List.mem_cons_of_mem _ hp)
    by_cases heq : w = v0
    · subst heq
      obtain ⟨u, hu, hchar⟩ := buildUpdate_ok aRow rest acc hnd.2 hsr
      refine ⟨u, ?_, ?_⟩
      · simpa [buildUpdate, hw] using hu
      · intro c
        by_cases hc : c = c0
        · subst hc
          rw [hchar c]
          simp [rowDiffLookup, alookup, hw, hrest0]
        · have hne : c0 ≠ c := fun he => hc he.symm
          rw [hchar c]
          simp [rowDiffLookup, alookup, hne]
    · obtain ⟨u, hu, hchar⟩ :=
        buildUpdate_ok aRow rest (dictInsert acc c0 v0) hnd.2 hsr
      refine ⟨u, ?_, ?_⟩
      · simp only [buildUpdate, hw]
        rw [if_neg heq]
        exact hu
      · intro c
        by_cases hc : c = c0
        · subst hc
          rw [hchar c]
          simp [rowDiffLookup, alookup, hw, hrest0, heq, alookup_dictInsert, Option.or]
        · have hne : c0 ≠ c := fun he => hc he.symm
          rw [hchar c]
          simp [rowDiffLookup, alookup, hne, alookup_dictInsert]

theorem buildUpdate_self (row : Row) (hnd : nodupKeys row) :
    buildUpdate row row [] = Except.ok [] := by
  have hsome : ∀ p ∈ row, (alookup row p.1).isSome = true := by
    intro p hp
    rw [alookup_of_mem row p.1 p.2 hp hnd]
    rfl
  obtain ⟨u, hu, hchar⟩ := buildUpdate_ok row row [] hnd hsome
  have hnone : ∀ c, alookup u c = none := by
    intro c
    rw [hchar c]
    cases hl : alookup row c <;> simp [rowDiffLookup, hl, alookup, Option.or]
  rw [hu, eq_nil_of_alookup_none u hnone]

theorem rowDiffLookup_none_iff (aRow br : Row)
    (hkeys : br.map Prod.fst = aRow.map Prod.fst) (hnd : (br.map Prod.fst).Nodup) :
    (∀ c, rowDiffLookup aRow br c = none) ↔ aRow = br := by
  constructor
  · intro h
    refine assoc_ext aRow br hkeys hnd ?_
    intro p hp
    have hbr : alookup br p.1 = some p.2 := alookup_of_mem br p.1 p.2 hp hnd
    have h2 := h p.1
    simp only [rowDiffLookup, hbr] at h2
    by_cases ha : alookup aRow p.1 = some p.2
    · exact ha
    · rw [if_neg ha] at h2
      exact absurd h2 (Option.some_ne_none _)
  · intro h c
    subst h
    rw [rowDiffLookup]
    cases hl : alookup aRow c with
    | none => rfl
    | some v => simp [hl]

theorem buildUpdate_full (aRow br : Row)
    (hkeys : br.map Prod.fst = aRow.map Prod.fst) (hnd : (br.map Prod.fst).Nodup) :
    ∃ u, buildUpdate aRow br [] = Except.ok u ∧
      (∀ c, alookup u c = rowDiffLookup aRow br c) ∧ (u = [] ↔ aRow = br) := by
  have hsome : ∀ p ∈ br, (alookup aRow p.1).isSome = true := by
    intro p hp
    rw [alookup_isSome_iff, ← hkeys]
    exact List.mem_map.mpr ⟨p, hp, rfl⟩
  obtain ⟨u, hu, hchar⟩ := buildUpdate_ok aRow br [] hnd hsome
  have hchar2 : ∀ c, alookup u c = rowDiffLookup aRow br c := by
    intro c
    rw [hchar c]
    cases rowDiffLookup aRow br c <;> simp [alookup, Option.or]
  refine ⟨u, hu, hchar2, ?_⟩
  rw [← rowDiffLookup_none_iff aRow br hkeys hnd]
  constructor
  · intro h c
    rw [← hchar2 c, h]
    rfl
  · intro h
    exact eq_nil_of_alookup_none u (fun c => (hchar2 c).trans (h c))

/-! ### Diff-output accessor lemmas -/

theorem insertsOf_cons_ne (t0 : String) (e : TableOut) (out : DiffOut) (t : String)
    (h : t0 ≠ t) : insertsOf ((t0, e) :: out) t = insertsOf out t := by
  simp [insertsOf, alookup, h]

theorem updatesOf_cons_ne (t0 : String) (e : TableOut) (out : DiffOut) (t : String)
    (h : t0 ≠ t) : updatesOf ((t0, e) :: out) t = updatesOf out t := by
  simp [updatesOf, alookup, h]

theorem deletesOf_cons_ne (t0 : String) (e : TableOut) (out : DiffOut) (t : String)
    (h : t0 ≠ t) : deletesOf ((t0, e) :: out) t = deletesOf out t := by
  simp [deletesOf, alookup, h]

theorem insertsOf_cons_self (t : String) (td : TableDiff) (out : DiffOut) :
    insertsOf ((t, TableOut.full td) :: out) t = td.inserts := by
  simp [insertsOf, alookup]

theorem updatesOf_cons_self (t : String) (td : TableDiff) (out : DiffOut) :
    updatesOf ((t, TableOut.full td) :: out) t = td.updates := by
  simp [updatesOf, alookup]

theorem deletesOf_cons_self (t : String) (td : TableDiff) (out : DiffOut) :
    deletesOf ((t, TableOut.full td) :: out) t = td.deletes := by
  simp [deletesOf, alookup]

theorem insertsOf_none (out : DiffOut) (t : String) (h : alookup out t = none) :
    insertsOf out t = [] := by
  simp [insertsOf, h]

theorem updatesOf_none (out : DiffOut) (t : String) (h : alookup out t = none) :
    updatesOf out t = [] := by
  simp [updatesOf, h]

theorem deletesOf_none (out : DiffOut) (t : String) (h : alookup out t = none) :
    deletesOf out t = [] := by
  simp [deletesOf, h]

/-! ### Classification lemmas for the B-side loop -/

theorem processB_ok (aT : Table) (pkeys : List (String × String)) (tname pk : String)
    (hpk : alookup pkeys tname = some pk) :
    ∀ (bT : List (Value × Row)) (ins upds : List Row),
      (∀ p ∈ bT, nodupKeys p.2) →
      (∀ p ∈ bT, (alookup p.2 pk).isSome = true) →
      (∀ p ∈ bT, ∀ ar, alookup aT p.1 = some ar → p.2.map Prod.fst = ar.map Prod.fst) →
      ∃ insN updsN,
        processB aT pkeys tname bT ins upds = Except.ok (ins ++ insN, upds ++ updsN) ∧
        insN = (bT.filter fun p => (alookup aT p.1).isNone).map Prod.snd ∧
        updsN.length = bT.countP (rowChanged aT) ∧
        ∀ u ∈ updsN, ∃ k br ar pv,
          (k, br) ∈ bT ∧ alookup aT k = some ar ∧ br ≠ ar ∧ alookup br pk = some pv ∧
          ∀ c, alookup u c = if pk = c then some pv else rowDiffLookup ar br c
  | [], ins, upds, _, _, _ => by
    refine ⟨[], [], by simp [processB], rfl, rfl, ?_⟩
    intro u hu
    simp at hu
  | (key, row) :: rest, ins, upds, hnd, hpkv, hcols => by
    have hndr : ∀ p ∈ rest, nodupKeys p.2 := fun p hp => hnd p (List.mem_cons_of_mem _ hp)
    have hpkr : ∀ p ∈ rest, (alookup p.2 pk).isSome = true := fun p hp =>
      hpkv p (List.mem_cons_of_mem _ hp)
    have hcolr : ∀ p ∈ rest, ∀ ar, alookup aT p.1 = some ar →
        p.2.map Prod.fst = ar.map Prod.fst := fun p hp => hcols p (List.mem_cons_of_mem _ hp)
    cases hl : alookup aT key with
    | none =>
      obtain ⟨insN, updsN, hrun, hins, hlen, hmem⟩ :=
        processB_ok aT pkeys tname pk hpk rest (ins ++ [row]) upds hndr hpkr hcolr
      refine ⟨row :: insN, updsN, ?_, ?_, ?_, ?_⟩
      · simp only [processB, hl]
        rw [hrun, List.append_assoc]
        rfl
      · simp only [List.filter_cons, hl, Option.isNone_none, List.map_cons, if_true]
        rw [hins]
      · rw [hlen, List.countP_cons]
        simp [rowChanged, hl]
      · intro u hu
        obtain ⟨k, br, ar, pv, hmem2, h2, h3, h4, h5⟩ := hmem u hu
        exact ⟨k, br, ar, pv, List.mem_cons_of_mem _ hmem2, h2, h3, h4, h5⟩
    | some ar =>
      have hcols0 : row.map Prod.fst = ar.map Prod.fst :=
        hcols (key, row) (List.mem_cons_self _ _) ar hl
      have hnd0 : nodupKeys row := hnd (key, row) (List.mem_cons_self _ _)
      obtain ⟨u0, hu0, hchar0, hempty⟩ := buildUpdate_full ar row hcols0 hnd0
      by_cases hz : u0 = []
      · have har : ar = row := hempty.mp hz
        obtain ⟨insN, updsN, hrun, hins, hlen, hmem⟩ :=
          processB_ok aT pkeys tname pk hpk rest ins upds hndr hpkr hcolr
        refine ⟨insN, updsN, ?_, ?_, ?_, ?_⟩
        · simp only [processB, hl, hu0]
          rw [if_pos hz]
          exact hrun
        · simp only [List.filter_cons, hl, Option.isNone_some, if_false]
          exact hins
        · rw [hlen, List.countP_cons]
          simp [rowChanged, hl, har]
        · intro u hu
          obtain ⟨k, br, ar2, pv, hmem2, h2, h3, h4, h5⟩ := hmem u hu
          exact ⟨k, br, ar2, pv, List.mem_cons_of_mem _ hmem2, h2, h3, h4, h5⟩
      · have hne : row ≠ ar := fun he => hz (hempty.mpr he.symm)
        have hpvs : (alookup row pk).isSome = true := hpkv (key, row) (List.mem_cons_self _ _)
        obtain ⟨pv, hpv⟩ := Option.isSome_iff_exists.mp hpvs
        obtain ⟨insN, updsN, hrun, hins, hlen, hmem⟩ :=
          processB_ok aT pkeys tname pk hpk rest ins (upds ++ [dictInsert u0 pk pv])
            hndr hpkr hcolr
        refine ⟨insN, dictInsert u0 pk pv :: updsN, ?_, ?_, ?_, ?_⟩
        · simp only [processB, hl, hu0]
          rw [if_neg hz]
          simp only [hpk, hpv]
          rw [hrun, List.append_assoc]
          rfl
        · simp only [List.filter_cons, hl, Option.isNone_some, if_false]
          exact hins
        · rw [List.length_cons, hlen, List.countP_cons]
          simp [rowChanged, hl, hne]
        · intro u hu
          rcases List.mem_cons.mp hu with h | h
          · subst h
            refine ⟨key, row, ar, pv, List.mem_cons_self _ _, hl, hne, hpv, ?_⟩
            intro c
            rw [alookup_dictInsert, hchar0 c]
          · obtain ⟨k, br, ar2, pv2, hmem2, h2, h3, h4, h5⟩ := hmem u h
            exact ⟨k, br, ar2, pv2, List.mem_cons_of_mem _ hmem2, h2, h3, h4, h5⟩

theorem diffGo_ok (pkeys : List (String × String)) (a : Snapshot) :
    ∀ bl : List (String × Table),
      (bl.map Prod.fst).Nodup →
      (∀ q ∈ bl, (alookup a q.1).isSome = true) →
      (∀ q ∈ bl, ∃ pk, alookup pkeys q.1 = some pk ∧
        ∀ p ∈ q.2, (alookup p.2 pk).isSome = true) →
      (∀ q ∈ bl, ∀ p ∈ q.2, nodupKeys p.2) →
      (∀ q ∈ bl, ∀ aT, alookup a q.1 = some aT →
        ∀ p ∈ q.2, ∀ ar, alookup aT p.1 = some ar → p.2.map Prod.fst = ar.map Prod.fst) →
      ∃ out : DiffOut, diffGo pkeys a false bl = Except.ok out ∧
        (∀ t, t ∈ out.map Prod.fst → t ∈ bl.map Prod.fst) ∧
        (∀ t bT aT, alookup bl t = some bT → alookup a t = some aT →
          insertsOf out t = (bT.filter fun p => (alookup aT p.1).isNone).map Prod.snd ∧
          deletesOf out t = collectDeletes aT bT ∧
          (updatesOf out t).length = bT.countP (rowChanged aT) ∧
          ∀ u ∈ updatesOf out t, ∃ pk k br ar pv,
            alookup pkeys t = some pk ∧
            (k, br) ∈ bT ∧ alookup aT k = some ar ∧ br ≠ ar ∧ alookup br pk = some pv ∧
            ∀ c, alookup u c = if pk = c then some pv else rowDiffLookup ar br c)
  | [], _, _, _, _, _ => by
    refine ⟨[], rfl, by simp, ?_⟩
    intro t bT aT h
    simp [alookup] at h
  | (t0, bT0) :: rest, hnd0, ha, hpk, hrnd, hcols => by
    have hnd := hnd0
    simp only [List.map_cons, List.nodup_cons] at hnd
    obtain ⟨aT0, ha0⟩ := Option.isSome_iff_exists.mp (ha (t0, bT0) (List.mem_cons_self _ _))
    obtain ⟨pk0, hpk0, hrows0⟩ := hpk (t0, bT0) (List.mem_cons_self _ _)
    obtain ⟨insN, updsN, hrun, hins, hlen, hmem⟩ :=
      processB_ok aT0 pkeys t0 pk0 hpk0 bT0 [] []
        (hrnd (t0, bT0) (List.mem_cons_self _ _))
        hrows0
        (hcols (t0, bT0) (List.mem_cons_self _ _) aT0 ha0)
    simp only [List.nil_append] at hrun
    obtain ⟨out2, hout2, hsub2, hchar2⟩ :=
      diffGo_ok pkeys a rest hnd.2
        (fun q hq => ha q (List.mem_cons_of_mem _ hq))
        (fun q hq => hpk q (List.mem_cons_of_mem _ hq))
        (fun q hq => hrnd q (List.mem_cons_of_mem _ hq))
        (fun q hq => hcols q (List.mem_cons_of_mem _ hq))
    by_cases hemp : insN = [] ∧ updsN = [] ∧ collectDeletes aT0 bT0 = []
    · refine ⟨out2, ?_, ?_, ?_⟩
      · simp only [diffGo, ha0, hrun, hout2]
        rw [if_pos hemp]
      · intro t ht
        simp only [List.map_cons]
        exact List.mem_cons_of_mem _ (hsub2 t ht)
      · intro t bT aT hbl hat
        rw [alookup] at hbl
        by_cases ht : t0 = t
        · subst ht
          rw [if_pos rfl] at hbl
          obtain rfl := Option.some.inj hbl
          rw [ha0] at hat
          obtain rfl := Option.some.inj hat
          have hnone : alookup out2 t0 = none :=
            (alookup_eq_none_iff out2 t0).mpr (fun hm => hnd.1 (hsub2 t0 hm))
          refine ⟨?_, ?_, ?_, ?_⟩
          · rw [insertsOf_none out2 t0 hnone, ← hins, hemp.1]
          · rw [deletesOf_none out2 t0 hnone, hemp.2.2]
          · rw [updatesOf_none out2 t0 hnone, ← hlen, hemp.2.1]
          · intro u hu
            rw [updatesOf_none out2 t0 hnone] at hu
            simp at hu
        · rw [if_neg ht] at hbl
          exact hchar2 t bT aT hbl hat
    · refine ⟨(t0, TableOut.full ⟨insN, updsN, collectDeletes aT0 bT0⟩) :: out2, ?_, ?_, ?_⟩
      · simp only [diffGo, ha0, hrun, hout2]
        rw [if_neg hemp]
        rfl
      · intro t ht
        simp only [List.map_cons, List.mem_cons] at ht ⊢
        rcases ht with h | h
        · exact Or.inl h
        · exact Or.inr (hsub2 t h)
      · intro t bT aT hbl hat
        rw [alookup] at hbl
        by_cases ht : t0 = t
        · subst ht
          rw [if_pos rfl] at hbl
          obtain rfl := Option.some.inj hbl
          rw [ha0] at hat
          obtain rfl := Option.some.inj hat
          refine ⟨?_, ?_, ?_, ?_⟩
          · rw [insertsOf_cons_self, ← hins]
          · rw [deletesOf_cons_self]
          · rw [updatesOf_cons_self]
            exact hlen
          · intro u hu
            rw [updatesOf_cons_self] at hu
            obtain ⟨k, br, ar, pv, hm, h2, h3, h4, h5⟩ := hmem u hu
            exact ⟨pk0, k, br, ar, pv, hpk0, hm, h2, h3, h4, h5⟩
        · rw [if_neg ht] at hbl
          rw [insertsOf_cons_ne _ _ _ _ ht, updatesOf_cons_ne _ _ _ _ ht,
            deletesOf_cons_ne _ _ _ _ ht]
          exact hchar2 t bT aT hbl hat

theorem processB_self (aT : Table) (pkeys : List (String × String)) (tname : String) :
    ∀ (bT : List (Value × Row)) (ins upds : List Row),
      (∀ p ∈ bT, alookup aT p.1 = some p.2) →
      (∀ p ∈ bT, nodupKeys p.2) →
      processB aT pkeys tname bT ins upds = Except.ok (ins, upds)
  | [], ins, upds, _, _ => rfl
  | (key, row) :: rest, ins, upds, hself, hnd => by
    have h0 : alookup aT key = some row := hself (key, row) (List.mem_cons_self _ _)
    have hb : buildUpdate row row [] = Except.ok [] :=
      buildUpdate_self row (hnd (key, row) (List.mem_cons_self _ _))
    simp only [processB, h0, hb]
    rw [if_pos trivial]
    exact processB_self aT pkeys tname rest ins upds
      (fun p hp => hself p (List.mem_cons_of_mem _ hp))
      (fun p hp => hnd p (List.mem_cons_of_mem _ hp))

theorem collectDeletes_nil (aT bT : Table)
    (h : ∀ p ∈ aT, (alookup bT p.1).isSome = true) : collectDeletes aT bT = [] := by
  rw [collectDeletes]
  have hf : aT.filter (fun p => (alookup bT p.1).isNone) = [] := by
    rw [List.filter_eq_nil_iff]
    intro p hp
    obtain ⟨v, hv⟩ := Option.isSome_iff_exists.mp (h p hp)
    simp [hv]
  rw [hf]
  rfl

theorem diffGo_self (pkeys : List (String × String)) (a : Snapshot) (compact : Bool) :
    ∀ bl : List (String × Table),
      (∀ q ∈ bl, alookup a q.1 = some q.2) →
      (∀ q ∈ bl, ∀ p ∈ q.2, alookup q.2 p.1 = some p.2) →
      (∀ q ∈ bl, ∀ p ∈ q.2, nodupKeys p.2) →
      diffGo pkeys a compact bl = Except.ok []
  | [], _, _, _ => rfl
  | (t0, bT0) :: rest, hself, hrows, hnd => by
    have h0 : alookup a t0 = some bT0 := hself (t0, bT0) (List.mem_cons_self _ _)
    have hp : processB bT0 pkeys t0 bT0 [] [] = Except.ok ([], []) :=
      processB_self bT0 pkeys t0 bT0 [] []
        (hrows (t0, bT0) (List.mem_cons_self _ _))
        (hnd (t0, bT0) (List.mem_cons_self _ _))
    have hd : collectDeletes bT0 bT0 = [] := by
      refine collectDeletes_nil bT0 bT0 ?_
      intro p hp2
      rw [hrows (t0, bT0) (List.mem_cons_self _ _) p hp2]
      rfl
    have hrest : diffGo pkeys a compact rest = Except.ok [] :=
      diffGo_self pkeys a compact rest
        (fun q hq => hself q (List.mem_cons_of_mem _ hq))
        (fun q hq => hrows q (List.mem_cons_of_mem _ hq))
        (fun q hq => hnd q (List.mem_cons_of_mem _ hq))
    simp only [diffGo, h0, hp, hd, hrest]
    rw [if_pos ⟨trivial, trivial, trivial⟩]

/-! ### Error-shape lemmas: past the drift check, only key errors arise -/

theorem buildUpdate_ne_drift (aRow : Row) :
    ∀ (br : List (String × Value)) (acc : Row),
      buildUpdate aRow br acc ≠ Except.error DiffError.schemaDrift
  | [], acc => by simp [buildUpdate]
  | (c0, v0) :: rest, acc => by
    cases hx : alookup aRow c0 with
    | none => simp [buildUpdate, hx]
    | some v2 =>
      simp only [buildUpdate, hx]
      by_cases h : v2 = v0
      · rw [if_pos h]
        exact buildUpdate_ne_drift aRow rest acc
      · rw [if_neg h]
        exact buildUpdate_ne_drift aRow rest (dictInsert acc c0 v0)

theorem processB_ne_drift (aT : Table) (pkeys : List (String × String)) (tname : String) :
    ∀ (bT : List (Value × Row)) (ins upds : List Row),
      processB aT pkeys tname bT ins upds ≠ Except.error DiffError.schemaDrift
  | [], ins, upds => by simp [processB]
  | (key, row) :: rest, ins, upds => by
    cases hl : alookup aT key with
    | none =>
      simp only [processB, hl]
      exact processB_ne_drift aT pkeys tname rest (ins ++ [row]) upds
    | some aRow =>
      cases hb : buildUpdate aRow row [] with
      | error e =>
        simp only [processB, hl, hb]
        intro hcontra
        obtain rfl := Except.error.inj hcontra
        exact buildUpdate_ne_drift aRow row [] hb
      | ok update =>
        simp only [processB, hl, hb]
        by_cases hz : update = []
        · rw [if_pos hz]
          exact processB_ne_drift aT pkeys tname rest ins upds
        · rw [if_neg hz]
          cases hpk : alookup pkeys tname with
          | none => simp
          | some pkey =>
            simp only [hpk]
            cases hpv : alookup row pkey with
            | none => simp
            | some pv =>
              simp only [hpv]
              exact processB_ne_drift aT pkeys tname rest ins
                (upds ++ [dictInsert update pkey pv])

theorem diffGo_ne_drift (pkeys : List (String × String)) (a : Snapshot) (compact : Bool) :
    ∀ bl : List (String × Table),
      diffGo pkeys a compact bl ≠ Except.error DiffError.schemaDrift
  | [] => by simp [diffGo]
  | (t0, bT0) :: rest => by
    cases ha : alookup a t0 with
    | none => simp [diffGo, ha]
    | some aT =>
      cases hp : processB aT pkeys t0 bT0 [] [] with
      | error e =>
        simp only [diffGo, ha, hp]
        intro hcontra
        obtain rfl := Except.error.inj hcontra
        exact processB_ne_drift aT pkeys t0 bT0 [] [] hp
      | ok pr =>
        obtain ⟨ins, upds⟩ := pr
        cases hr : diffGo pkeys a compact rest with
        | error e =>
          simp only [diffGo, ha, hp, hr]
          intro hcontra
          obtain rfl := Except.error.inj hcontra
          exact diffGo_ne_drift pkeys a compact rest hr
        | ok out2 =>
          simp only [diffGo, ha, hp, hr]
          by_cases hemp : ins = [] ∧ upds = [] ∧ collectDeletes aT bT0 = []
          · rw [if_pos hemp]
            simp
          · rw [if_neg hemp]
            cases compact <;> simp

/-! ### Compact-mode agreement -/

theorem diffGo_compact_eq (pkeys : List (String × String)) (a : Snapshot) :
    ∀ bl : List (String × Table),
      diffGo pkeys a true bl =
        (match diffGo pkeys a false bl with
         | Except.error e => Except.error e
         | Except.ok out => Except.ok (out.map fun p => (p.1, compactify p.2)))
  | [] => rfl
  | (t0, bT0) :: rest => by
    cases ha : alookup a t0 with
    | none => simp [diffGo, ha]
    | some aT =>
      cases hp : processB aT pkeys t0 bT0 [] [] with
      | error e => simp [diffGo, ha, hp]
      | ok pr =>
        obtain ⟨ins, upds⟩ := pr
        have hrec := diffGo_compact_eq pkeys a rest
        cases hr : diffGo pkeys a false rest with
        | error e =>
          rw [hr] at hrec
          simp only [diffGo, ha, hp, hr, hrec]
        | ok out2 =>
          rw [hr] at hrec
          simp only [diffGo, ha, hp, hr, hrec]
          by_cases hemp : ins = [] ∧ upds = [] ∧ collectDeletes aT bT0 = []
          · rw [if_pos hemp, if_pos hemp]
          · rw [if_neg hemp, if_neg hemp]
            simp [compactify]

theorem diffGo_false_full (pkeys : List (String × String)) (a : Snapshot) :
    ∀ (bl : List (String × Table)) (out : DiffOut),
      diffGo pkeys a false bl = Except.ok out →
      ∀ p ∈ out, ∃ td, p.2 = TableOut.full td
  | [], out, h => by
    obtain rfl := Except.ok.inj h
    intro p hp
    simp at hp
  | (t0, bT0) :: rest, out, h => by
    cases ha : alookup a t0 with
    | none => simp [diffGo, ha] at h
    | some aT =>
      cases hp : processB aT pkeys t0 bT0 [] [] with
      | error e => simp [diffGo, ha, hp] at h
      | ok pr =>
        obtain ⟨ins, upds⟩ := pr
        cases hr : diffGo pkeys a false rest with
        | error e => simp [diffGo, ha, hp, hr] at h
        | ok out2 =>
          simp only [diffGo, ha, hp, hr] at h
          by_cases hemp : ins = [] ∧ upds = [] ∧ collectDeletes aT bT0 = []
          · rw [if_pos hemp] at h
            obtain rfl := Except.ok.inj h
            exact diffGo_false_full pkeys a rest out2 hr
          · rw [if_neg hemp] at h
            simp only [Bool.false_eq_true, if_false] at h
            obtain rfl := Except.ok.inj h
            intro p hpm
            rcases List.mem_cons.mp hpm with h2 | h2
            · subst h2
              exact ⟨_, rfl⟩
            · exact diffGo_false_full pkeys a rest out2 hr p h2

theorem rowDiffLookup_isSome_iff (ar br : Row)
    (hcols : br.map Prod.fst = ar.map Prod.fst) (c : String) :
    (rowDiffLookup ar br c).isSome = true ↔ alookup br c ≠ alookup ar c := by
  cases hbc : alookup br c with
  | none =>
    have har : alookup ar c = none := by
      rw [alookup_eq_none_iff, ← hcols]
      exact (alookup_eq_none_iff br c).mp hbc
    simp [rowDiffLookup, hbc, har]
  | some v =>
    by_cases har : alookup ar c = some v
    · simp [rowDiffLookup, hbc, har]
    · simp only [rowDiffLookup, hbc, if_neg har]
      constructor
      · intro _
        intro he
        exact har he.symm
      · intro _
        rfl

theorem rowDiffLookup_some (ar br : Row) (c : String) (v : Value)
    (h : rowDiffLookup ar br c = some v) : alookup br c = some v := by
  cases hbc : alookup br c with
  | none =>
    simp only [rowDiffLookup, hbc] at h
    exact absurd h (by simp)
  | some w =>
    simp only [rowDiffLookup, hbc] at h
    by_cases har : alookup ar c = some w
    · rw [if_pos har] at h
      exact absurd h (by simp)
    · rw [if_neg har] at h
      exact h

/-! ### Fixture-loader lemmas -/

theorem buildDictCols_ok :
    ∀ l : List (String × Value), (∀ p ∈ l, colnameMatch p.1 = true) →
      buildDictCols l = Except.ok (l.map Prod.fst, l.map Prod.snd)
  | [], _ => rfl
  | (c0, v0) :: rest, h => by
    have h0 : colnameMatch c0 = true := h (c0, v0) (List.mem_cons_self _ _)
    have hr := buildDictCols_ok rest (fun p hp => h p (List.mem_cons_of_mem _ hp))
    simp only [buildDictCols, h0, hr, if_true, List.map_cons]

theorem buildDictCols_err :
    ∀ l : List (String × Value), (∃ p ∈ l, colnameMatch p.1 = false) →
      ∃ c, buildDictCols l = Except.error (LoadError.invalidColname c) ∧
        colnameMatch c = false
  | [], h => by simp at h
  | (c0, v0) :: rest, h => by
    by_cases h0 : colnameMatch c0 = true
    · have hrest : ∃ p ∈ rest, colnameMatch p.1 = false := by
        obtain ⟨p, hp, hpf⟩ := h
        rcases List.mem_cons.mp hp with he | he
        · subst he
          rw [h0] at hpf
          exact absurd hpf (by simp)
        · exact ⟨p, he, hpf⟩
      obtain ⟨c, hc, hcf⟩ := buildDictCols_err rest hrest
      refine ⟨c, ?_, hcf⟩
      simp only [buildDictCols, h0, hc, if_true]
    · have h0f : colnameMatch c0 = false := by
        cases hcm : colnameMatch c0
        · rfl
        · exact absurd hcm h0
      refine ⟨c0, ?_, h0f⟩
      simp only [buildDictCols, h0f]
      rfl

/-! ### Primary-key introspection lemmas -/

theorem getPKGo_ok :
    ∀ (rows : List (String × String)) (acc : List (String × String)),
      (∀ r ∈ rows, (parsePkey r.2).isSome = true) →
      ∃ m, getPKGo acc rows = Except.ok m
  | [], acc, _ => ⟨acc, rfl⟩
  | (t0, d0) :: rest, acc, h => by
    obtain ⟨pk, hpk⟩ := Option.isSome_iff_exists.mp (h (t0, d0) (List.mem_cons_self _ _))
    obtain ⟨m, hm⟩ := getPKGo_ok rest (dictInsert acc t0 pk)
      (fun r hr => h r (List.mem_cons_of_mem _ hr))
    refine ⟨m, ?_⟩
    simp only [getPKGo, hpk, hm]

theorem getPKGo_err :
    ∀ (rows : List (String × String)) (acc : List (String × String)),
      (∃ r ∈ rows, parsePkey r.2 = none) →
      getPKGo acc rows = Except.error PkeysError.indexError
  | [], _, h => by simp at h
  | (t0, d0) :: rest, acc, h => by
    cases hp : parsePkey d0 with
    | none => simp only [getPKGo, hp]
    | some pk =>
      have hrest : ∃ r ∈ rest, parsePkey r.2 = none := by
        obtain ⟨r, hr, hrn⟩ := h
        rcases List.mem_cons.mp hr with he | he
        · subst he
          rw [hp] at hrn
          exact absurd hrn (by simp)
        · exact ⟨r, he, hrn⟩
      simp only [getPKGo, hp]
      exact getPKGo_err rest (dictInsert acc t0 pk) hrest

/-! ### Claim theorems -/

/-- Claim C3: the truncate-all reset runs only when the environment
confirmation token is present and exactly equal to the expected phrase;
when the token is absent the read itself raises (Python `KeyError`), and
when it differs the explicit guard raises (`Exception("Heck.")`), in both
cases before any `TRUNCATE` statement is issued, so the store is unchanged
(the error branch carries no new store state). -/
theorem C3_reset_guard (env : List (String × String)) (store : Snapshot) :
    (alookup env safetyVarName = some safetyPhrase →
      deleteData env store = Except.ok (store.map fun p => (p.1, ([] : Table)))) ∧
    (alookup env safetyVarName ≠ some safetyPhrase →
      deleteData env store = Except.error (ResetError.keyError safetyVarName) ∨
      deleteData env store = Except.error ResetError.heck) := by
  cases hb : alookup env safetyVarName with
  | none =>
    constructor
    · intro h
      exact absurd h (by simp)
    · intro _
      left
      simp only [deleteData, hb]
  | some belt =>
    by_cases hp : belt = safetyPhrase
    · subst hp
      constructor
      · intro _
        simp only [deleteData, hb]
        rw [if_pos trivial]
      · intro h
        exact absurd rfl h
    · constructor
      · intro h
        exact absurd (Option.some.inj h) hp
      · intro _
        right
        simp only [deleteData, hb]
        rw [if_neg hp]

/-- Witness for C3: with an empty environment the reset refuses to run on a
non-empty store. -/
theorem C3_reset_guard_witness :
    deleteData [] [("t", [(Value.int 1, [("id", Value.int 1)])])] =
        Except.error (ResetError.keyError safetyVarName) ∨
      deleteData [] [("t", [(Value.int 1, [("id", Value.int 1)])])] =
        Except.error ResetError.heck :=
  (C3_reset_guard [] [("t", [(Value.int 1, [("id", Value.int 1)])])]).2 (by decide)

/-- Claim C5: diffing a well-formed snapshot against itself with
`compact = false` yields an empty result: no table entry is emitted at all,
because a table is emitted only when it has at least one insert, update or
delete. -/
theorem C5_diff_identity (pkeys : List (String × String)) (s : Snapshot)
    (h : snapWF s) : diffDumps pkeys s s false = Except.ok [] := by
  rw [diffDumps, if_pos rfl]
  refine diffGo_self pkeys s false s ?_ ?_ ?_
  · intro q hq
    exact alookup_of_mem s q.1 q.2 hq h.1
  · intro q hq p hp
    exact alookup_of_mem q.2 p.1 p.2 hp (h.2 q hq).1
  · intro q hq p hp
    exact (h.2 q hq).2 p hp

/-- Witness for C5: the identity diff of a one-table, one-row snapshot. -/
theorem C5_diff_identity_witness :
    diffDumps [("t", "id")]
        [("t", [(Value.int 1, [("id", Value.int 1), ("x", Value.str "A")])])]
        [("t", [(Value.int 1, [("id", Value.int 1), ("x", Value.str "A")])])]
        false = Except.ok [] :=
  C5_diff_identity [("t", "id")]
    [("t", [(Value.int 1, [("id", Value.int 1), ("x", Value.str "A")])])] (by decide)

/-- Claim C6: for snapshots with distinct-keyed tables (as Python dicts
always are), the diff fails with the schema-drift assertion exactly when the
two table-name sets differ; when they coincide the run can never produce the
schema-drift error, since the guard runs before any row is classified and no
later step raises it. -/
theorem C6_schema_drift (pkeys : List (String × String)) (a b : Snapshot)
    (compact : Bool) (ha : nodupKeys a) (hb : nodupKeys b) :
    ((¬ ((∀ t ∈ a.map Prod.fst, t ∈ b.map Prod.fst) ∧
         (∀ t ∈ b.map Prod.fst, t ∈ a.map Prod.fst))) →
      diffDumps pkeys a b compact = Except.error DiffError.schemaDrift) ∧
    (((∀ t ∈ a.map Prod.fst, t ∈ b.map Prod.fst) ∧
      (∀ t ∈ b.map Prod.fst, t ∈ a.map Prod.fst)) →
      diffDumps pkeys a b compact ≠ Except.error DiffError.schemaDrift) := by
  constructor
  · intro hne
    rw [diffDumps]
    by_cases hk : sortedKeys a = sortedKeys b
    · exfalso
      apply hne
      simp only [sortedKeys] at hk
      have p2 : (isort strLe (b.map Prod.fst)).Perm (b.map Prod.fst) := isort_perm _ _
      rw [← hk] at p2
      have hperm : (a.map Prod.fst).Perm (b.map Prod.fst) :=
        (isort_perm strLe (a.map Prod.fst)).symm.trans p2
      exact ⟨fun t ht => hperm.mem_iff.mp ht, fun t ht => hperm.mem_iff.mpr ht⟩
    · rw [if_neg hk]
  · intro hincl
    have hperm : (a.map Prod.fst).Perm (b.map Prod.fst) :=
      (List.perm_ext_iff_of_nodup ha hb).mpr
        (fun t => ⟨fun h => hincl.1 t h, fun h => hincl.2 t h⟩)
    have hk : sortedKeys a = sortedKeys b := by
      simp only [sortedKeys]
      exact isort_strLe_canonical _ _ hperm
    rw [diffDumps, if_pos hk]
    exact diffGo_ne_drift pkeys a compact b

/-- Witness for C6: snapshots whose table-name sets differ are rejected with
the schema-drift error. -/
theorem C6_schema_drift_witness :
    diffDumps [] [("x", [])] [] false = Except.error DiffError.schemaDrift :=
  (C6_schema_drift [] [("x", [])] [] false (by decide) (by decide)).1 (by decide)

/-- Claim C7, counterexample: on a composite-key index row the introspection
does not raise; it returns the whole text between the parentheses, a string
that is not a single column name (it holds characters outside the identifier
class). -/
theorem C7_counterexample :
    getPrimaryKeys [("t", "CREATE UNIQUE INDEX t_pkey ON t USING btree (a, b)")] =
        Except.ok [("t", "a, b")] ∧
      ("a, b").data.all isWordChar = false :=
  ⟨rfl, rfl⟩

/-- Claim C7 as amended: the primary-key introspection never validates the
extracted text.  It succeeds on every catalog result whose index definitions
each contain an opening parenthesis, storing the text between the first
parentheses verbatim, composite column lists included; its only failure is
the Python `IndexError` raised by the subscript when some index definition
has no parenthesis.  A table with zero extractable primary-key columns is
simply absent from the query result and from the returned mapping, with no
error. -/
theorem C7_amended (rows : List (String × String)) :
    ((∀ r ∈ rows, (parsePkey r.2).isSome = true) →
      ∃ m, getPrimaryKeys rows = Except.ok m) ∧
    ((∃ r ∈ rows, parsePkey r.2 = none) →
      getPrimaryKeys rows = Except.error PkeysError.indexError) := by
  constructor
  · intro h
    rw [getPrimaryKeys]
    exact getPKGo_ok rows [] h
  · intro h
    rw [getPrimaryKeys]
    exact getPKGo_err rows [] h

/-- Witness for C7 amended: a parenthesised definition parses without error. -/
theorem C7_amended_witness :
    ∃ m, getPrimaryKeys [("t", "CREATE UNIQUE INDEX t_pkey ON t (id)")] =
      Except.ok m :=
  (C7_amended [("t", "CREATE UNIQUE INDEX t_pkey ON t (id)")]).1 (by decide)

/-- Claim C8: `Context.diff` never mutates the stored baseline.  In the
embedding the baseline is the harness state threaded through the call (the
source deep-copies `self.a` before comparing, and never assigns to it), so
any number of diff calls leaves the baseline exactly as the last load set
it, and two consecutive diff calls over an unchanged store return equal
results. -/
theorem C8_diff_preserves_baseline (pkeys : List (String × String)) (ctx : Context)
    (store : Snapshot) (compact : Bool) (n : Nat) :
    Context.iterDiff pkeys store compact n ctx = ctx ∧
    (Context.diff pkeys ((Context.diff pkeys ctx store compact).2) store compact).1 =
      (Context.diff pkeys ctx store compact).1 := by
  constructor
  · induction n with
    | zero => rfl
    | succ n ih => exact ih
  · rfl

/-- Claim C10: the diff checks only table-name sets for drift, so a pair of
snapshots with identical table sets in which B's row carries a column absent
from A's corresponding row makes the update-classification lookup
`a_table[key][colname]` raise a `KeyError` instead of producing a diff.
Shown on a concrete pair: equal sorted table keys, the column absent on the
A side, and the run ending in the key error for that column. -/
theorem C10_column_drift_keyerror :
    sortedKeys [("t", [(Value.int 1, [("id", Value.int 1)])])] =
        sortedKeys [("t", [(Value.int 1, [("id", Value.int 1), ("x", Value.int 2)])])] ∧
      alookup [("id", Value.int 1)] "x" = none ∧
      diffDumps [("t", "id")] [("t", [(Value.int 1, [("id", Value.int 1)])])]
          [("t", [(Value.int 1, [("id", Value.int 1), ("x", Value.int 2)])])] false =
        Except.error (DiffError.keyError "x") :=
  ⟨rfl, rfl, rfl⟩

/-- Claim C1: over snapshots with identical table-name sets (and the
distinct-key structure every Python dict has, with each pair of same-key
rows sharing its column set and every row carrying its table's primary-key
column), the diff classifies per table: a row is reported as an insert
exactly when its key is present in B but not in A (carrying B's full row),
as a delete exactly when its key is present in A but not in B (carrying A's
full row), and the number of update records equals the number of keys
present in both snapshots whose rows differ — so keys with identical rows
produce no entry. -/
theorem C1_diff_classification (pkeys : List (String × String)) (a b : Snapshot)
    (hA : snapWF a) (hB : snapWF b) (hkeys : sortedKeys a = sortedKeys b)
    (hpk : ∀ q ∈ b, ∃ pk ∈ pkeys.map Prod.snd, alookup pkeys q.1 = some pk ∧
      ∀ p ∈ q.2, (alookup p.2 pk).isSome = true)
    (hcols : ∀ q ∈ b, ∀ q2 ∈ a, q2.1 = q.1 →
      ∀ p ∈ q.2, ∀ p2 ∈ q2.2, p2.1 = p.1 → p.2.map Prod.fst = p2.2.map Prod.fst) :
    ∃ out : DiffOut, diffDumps pkeys a b false = Except.ok out ∧
      ∀ t bT aT, alookup b t = some bT → alookup a t = some aT →
        (∀ row, row ∈ insertsOf out t ↔
          ∃ k, alookup bT k = some row ∧ alookup aT k = none) ∧
        (∀ row, row ∈ deletesOf out t ↔
          ∃ k, alookup aT k = some row ∧ alookup bT k = none) ∧
        (updatesOf out t).length = bT.countP (rowChanged aT) := by
  have hkeys2 := hkeys
  simp only [sortedKeys] at hkeys2
  have p2 : (isort strLe (b.map Prod.fst)).Perm (b.map Prod.fst) := isort_perm _ _
  rw [← hkeys2] at p2
  have hperm : (a.map Prod.fst).Perm (b.map Prod.fst) :=
    (isort_perm strLe (a.map Prod.fst)).symm.trans p2
  have hsome : ∀ q ∈ b, (alookup a q.1).isSome = true := by
    intro q hq
    rw [alookup_isSome_iff]
    exact hperm.mem_iff.mpr (List.mem_map.mpr ⟨q, hq, rfl⟩)
  have hpk2 : ∀ q ∈ b, ∃ pk, alookup pkeys q.1 = some pk ∧
      ∀ p ∈ q.2, (alookup p.2 pk).isSome = true := by
    intro q hq
    obtain ⟨pk, _, h1, h2⟩ := hpk q hq
    exact ⟨pk, h1, h2⟩
  have hrnd : ∀ q ∈ b, ∀ p ∈ q.2, nodupKeys p.2 := fun q hq p hp => (hB.2 q hq).2 p hp
  have hcols2 : ∀ q ∈ b, ∀ aT, alookup a q.1 = some aT →
      ∀ p ∈ q.2, ∀ ar, alookup aT p.1 = some ar →
        p.2.map Prod.fst = ar.map Prod.fst := by
    intro q hq aT haT p hp ar har
    exact hcols q hq (q.1, aT) (mem_of_alookup a q.1 aT haT) rfl p hp (p.1, ar)
      (mem_of_alookup aT p.1 ar har) rfl
  obtain ⟨out, hout, hsub, hchar⟩ := diffGo_ok pkeys a b hB.1 hsome hpk2 hrnd hcols2
  refine ⟨out, ?_, ?_⟩
  · rw [diffDumps, if_pos hkeys]
    exact hout
  · intro t bT aT hbT haT
    obtain ⟨hins, hdel, hlen, _⟩ := hchar t bT aT hbT haT
    have hbTb : (t, bT) ∈ b := mem_of_alookup b t bT hbT
    have haTa : (t, aT) ∈ a := mem_of_alookup a t aT haT
    have hndb : nodupKeys bT := (hB.2 (t, bT) hbTb).1
    have hnda : nodupKeys aT := (hA.2 (t, aT) haTa).1
    refine ⟨?_, ?_, hlen⟩
    · intro row
      rw [hins]
      constructor
      · intro hr
        obtain ⟨p, hp, hrow⟩ := List.mem_map.mp hr
        obtain ⟨hpmem, hkeep⟩ := List.mem_filter.mp hp
        refine ⟨p.1, ?_, Option.isNone_iff_eq_none.mp hkeep⟩
        rw [alookup_of_mem bT p.1 p.2 hpmem hndb, hrow]
      · rintro ⟨k, hk1, hk2⟩
        refine List.mem_map.mpr ⟨(k, row), ?_, rfl⟩
        refine List.mem_filter.mpr ⟨mem_of_alookup bT k row hk1, ?_⟩
        rw [hk2]
        rfl
    · intro row
      rw [hdel, collectDeletes]
      constructor
      · intro hr
        obtain ⟨p, hp, hrow⟩ := List.mem_map.mp hr
        obtain ⟨hpmem, hkeep⟩ := List.mem_filter.mp hp
        refine ⟨p.1, ?_, Option.isNone_iff_eq_none.mp hkeep⟩
        rw [alookup_of_mem aT p.1 p.2 hpmem hnda, hrow]
      · rintro ⟨k, hk1, hk2⟩
        refine List.mem_map.mpr ⟨(k, row), ?_, rfl⟩
        refine List.mem_filter.mpr ⟨mem_of_alookup aT k row hk1, ?_⟩
        rw [hk2]
        rfl

/-- Witness for C1: the classification theorem applied to a concrete pair of
snapshots exercising one insert, one update and one delete. -/
theorem C1_diff_classification_witness :
    ∃ out : DiffOut,
      diffDumps [("t", "id")]
          [("t", [(Value.int 1, [("id", Value.int 1), ("x", Value.str "A")]),
                  (Value.int 2, [("id", Value.int 2), ("x", Value.str "B")])])]
          [("t", [(Value.int 1, [("id", Value.int 1), ("x", Value.str "C")]),
                  (Value.int 3, [("id", Value.int 3), ("x", Value.str "D")])])]
          false = Except.ok out :=
  (C1_diff_classification [("t", "id")]
      [("t", [(Value.int 1, [("id", Value.int 1), ("x", Value.str "A")]),
              (Value.int 2, [("id", Value.int 2), ("x", Value.str "B")])])]
      [("t", [(Value.int 1, [("id", Value.int 1), ("x", Value.str "C")]),
              (Value.int 3, [("id", Value.int 3), ("x", Value.str "D")])])]
      (by decide) (by decide) (by decide) (by decide) (by decide)).imp
    (fun out h => h.1)

/-- Claim C4: under the same well-formedness as C1, every update record the
diff emits belongs to a key present in both snapshots whose rows differ, and
its columns are exactly the columns on which the two rows disagree plus the
table's primary-key column (always present, whether or not it changed); all
its values are taken from B's row. -/
theorem C4_update_minimality (pkeys : List (String × String)) (a b : Snapshot)
    (hA : snapWF a) (hB : snapWF b) (hkeys : sortedKeys a = sortedKeys b)
    (hpk : ∀ q ∈ b, ∃ pk ∈ pkeys.map Prod.snd, alookup pkeys q.1 = some pk ∧
      ∀ p ∈ q.2, (alookup p.2 pk).isSome = true)
    (hcols : ∀ q ∈ b, ∀ q2 ∈ a, q2.1 = q.1 →
      ∀ p ∈ q.2, ∀ p2 ∈ q2.2, p2.1 = p.1 → p.2.map Prod.fst = p2.2.map Prod.fst) :
    ∃ out : DiffOut, diffDumps pkeys a b false = Except.ok out ∧
      ∀ t bT aT pk, alookup b t = some bT → alookup a t = some aT →
        alookup pkeys t = some pk →
        ∀ u ∈ updatesOf out t, ∃ k br ar,
          alookup bT k = some br ∧ alookup aT k = some ar ∧ br ≠ ar ∧
          (∀ c, (alookup u c).isSome = true ↔
            (c = pk ∨ alookup br c ≠ alookup ar c)) ∧
          (∀ c v, alookup u c = some v → alookup br c = some v) := by
  have hkeys2 := hkeys
  simp only [sortedKeys] at hkeys2
  have p2 : (isort strLe (b.map Prod.fst)).Perm (b.map Prod.fst) := isort_perm _ _
  rw [← hkeys2] at p2
  have hperm : (a.map Prod.fst).Perm (b.map Prod.fst) :=
    (isort_perm strLe (a.map Prod.fst)).symm.trans p2
  have hsome : ∀ q ∈ b, (alookup a q.1).isSome = true := by
    intro q hq
    rw [alookup_isSome_iff]
    exact hperm.mem_iff.mpr (List.mem_map.mpr ⟨q, hq, rfl⟩)
  have hpk2 : ∀ q ∈ b, ∃ pk, alookup pkeys q.1 = some pk ∧
      ∀ p ∈ q.2, (alookup p.2 pk).isSome = true := by
    intro q hq
    obtain ⟨pk, _, h1, h2⟩ := hpk q hq
    exact ⟨pk, h1, h2⟩
  have hrnd : ∀ q ∈ b, ∀ p ∈ q.2, nodupKeys p.2 := fun q hq p hp => (hB.2 q hq).2 p hp
  have hcols2 : ∀ q ∈ b, ∀ aT, alookup a q.1 = some aT →
      ∀ p ∈ q.2, ∀ ar, alookup aT p.1 = some ar →
        p.2.map Prod.fst = ar.map Prod.fst := by
    intro q hq aT haT p hp ar har
    exact hcols q hq (q.1, aT) (mem_of_alookup a q.1 aT haT) rfl p hp (p.1, ar)
      (mem_of_alookup aT p.1 ar har) rfl
  obtain ⟨out, hout, hsub, hchar⟩ := diffGo_ok pkeys a b hB.1 hsome hpk2 hrnd hcols2
  refine ⟨out, ?_, ?_⟩
  · rw [diffDumps, if_pos hkeys]
    exact hout
  · intro t bT aT pk hbT haT hpkt u hu
    obtain ⟨_, _, _, hupd⟩ := hchar t bT aT hbT haT
    obtain ⟨pk2, k, br, ar, pv, hpk2b, hmemb, har, hne, hpv, hcharu⟩ := hupd u hu
    rw [hpkt] at hpk2b
    obtain rfl := Option.some.inj hpk2b
    have hbTb : (t, bT) ∈ b := mem_of_alookup b t bT hbT
    have hndb : nodupKeys bT := (hB.2 (t, bT) hbTb).1
    have hbrk : alookup bT k = some br := alookup_of_mem bT k br hmemb hndb
    have hcoleq : br.map Prod.fst = ar.map Prod.fst :=
      hcols2 (t, bT) hbTb aT haT (k, br) hmemb ar har
    refine ⟨k, br, ar, hbrk, har, hne, ?_, ?_⟩
    · intro c
      by_cases hc : pk = c
      · subst hc
        rw [hcharu pk, if_pos rfl]
        exact ⟨fun _ => Or.inl rfl, fun _ => rfl⟩
      · rw [hcharu c, if_neg hc, rowDiffLookup_isSome_iff ar br hcoleq c]
        constructor
        · intro hd
          exact Or.inr hd
        · intro hd
          rcases hd with hd | hd
          · exact absurd hd.symm hc
          · exact hd
    · intro c v hv
      by_cases hc : pk = c
      · subst hc
        rw [hcharu pk, if_pos rfl] at hv
        obtain rfl := Option.some.inj hv
        exact hpv
      · rw [hcharu c, if_neg hc] at hv
        exact rowDiffLookup_some ar br c v hv

/-- Witness for C4: the minimality theorem applied to a concrete update of a
single column. -/
theorem C4_update_minimality_witness :
    ∃ out : DiffOut,
      diffDumps [("t", "id")]
          [("t", [(Value.int 1, [("id", Value.int 1), ("x", Value.str "A"),
                                 ("y", Value.int 7)])])]
          [("t", [(Value.int 1, [("id", Value.int 1), ("x", Value.str "B"),
                                 ("y", Value.int 7)])])]
          false = Except.ok out :=
  (C4_update_minimality [("t", "id")]
      [("t", [(Value.int 1, [("id", Value.int 1), ("x", Value.str "A"),
                             ("y", Value.int 7)])])]
      [("t", [(Value.int 1, [("id", Value.int 1), ("x", Value.str "B"),
                             ("y", Value.int 7)])])]
      (by decide) (by decide) (by decide) (by decide) (by decide)).imp
    (fun out h => h.1)

/-- Claim C2, counterexample: the column name built from the letter a and a
trailing newline contains a character outside the identifier class, so under
the claim it should be rejected; but Python's dollar anchor also matches just
before a trailing newline, so `colname_re.match` accepts it and the loader
executes an INSERT with the newline interpolated into the column list. -/
theorem C2_counterexample :
    colnameMatchStrict "a\n" = false ∧
      ("a\n").data.all isWordChar = false ∧
      load ["t"] [FixtureItem.table "t", FixtureItem.record [("a\n", Value.int 1)]] =
        ([{ sql := "INSERT INTO t (a\n) VALUES (%s)", params := [Value.int 1] }],
          none) := by
  refine ⟨rfl, rfl, ?_⟩
  decide

/-- Claim C2 as amended: with a current table selected, a record containing
any column name rejected by `colname_re.match` — which accepts exactly one
or more identifier-class characters optionally followed by a single trailing
newline — aborts with the identifier-validation error and executes no INSERT
for that record (or any later item); a record whose column names all pass
produces exactly one INSERT whose SQL names the supplied columns in sorted
order and carries only placeholders, with the values passed separately as
parameters. -/
theorem C2_injection_guard (known : List String) (tname : String)
    (row : List (String × Value)) (rest : List FixtureItem) (hn : tname ≠ "") :
    ((∃ p ∈ row, colnameMatch p.1 = false) →
      (loadGo known tname (FixtureItem.record row :: rest)).1 = [] ∧
      ∃ c, (loadGo known tname (FixtureItem.record row :: rest)).2 =
          some (LoadError.invalidColname c) ∧ colnameMatch c = false) ∧
    ((∀ p ∈ row, colnameMatch p.1 = true) →
      ∃ st, (loadGo known tname (FixtureItem.record row :: rest)).1 =
              st :: (loadGo known tname rest).1 ∧
        (loadGo known tname (FixtureItem.record row :: rest)).2 =
          (loadGo known tname rest).2 ∧
        st.sql = insertSQL tname
            (" (" ++ String.intercalate ", " ((sortPairs row).map Prod.fst) ++ ") ")
            row.length ∧
        st.params = (sortPairs row).map Prod.snd ∧
        ((sortPairs row).map Prod.fst).Perm (row.map Prod.fst) ∧
        List.Pairwise (fun x y => strLe x y = true) ((sortPairs row).map Prod.fst)) := by
  have hsp : (sortPairs row).Perm row := isort_perm pairLe row
  constructor
  · intro hbad
    have hbad2 : ∃ p ∈ sortPairs row, colnameMatch p.1 = false := by
      obtain ⟨p, hp, hf⟩ := hbad
      exact ⟨p, hsp.mem_iff.mpr hp, hf⟩
    obtain ⟨c, hc, hcf⟩ := buildDictCols_err (sortPairs row) hbad2
    refine ⟨?_, c, ?_, hcf⟩
    · simp only [loadGo, if_neg hn, hc]
    · simp only [loadGo, if_neg hn, hc]
  · intro hgood
    have hgood2 : ∀ p ∈ sortPairs row, colnameMatch p.1 = true := fun p hp =>
      hgood p (hsp.mem_iff.mp hp)
    have hb := buildDictCols_ok (sortPairs row) hgood2
    refine ⟨⟨insertSQL tname
        (" (" ++ String.intercalate ", " ((sortPairs row).map Prod.fst) ++ ") ")
        row.length, (sortPairs row).map Prod.snd⟩, ?_, ?_, rfl, rfl,
      hsp.map Prod.fst, ?_⟩
    · simp only [loadGo, if_neg hn, hb]
    · simp only [loadGo, if_neg hn, hb]
    · have hpw := isort_pairwise pairLe
        (fun p q => strLe_total p.1 q.1)
        (fun p q r h1 h2 => strLe_trans p.1 q.1 r.1 h1 h2) row
      exact List.Pairwise.map Prod.fst (fun p q h => h) hpw

/-- Witness for C2 amended: loading a two-column record executes exactly one
INSERT ahead of the remaining items. -/
theorem C2_injection_guard_witness :
    ∃ st, (loadGo ["t"] "t"
        [FixtureItem.record [("b", Value.int 2), ("a", Value.int 1)]]).1 =
      st :: (loadGo ["t"] "t" []).1 :=
  ((C2_injection_guard ["t"] "t" [("b", Value.int 2), ("a", Value.int 1)] []
      (by decide)).2 (by decide)).imp
    (fun st h => h.1)

/-- Claim C9: the compact diff agrees with the non-compact diff over the
same snapshots: the two runs fail alike, and on success the compact output
lists the same tables in the same order, every non-compact entry is a full
record, and each table's compact triple is exactly the lengths of the
non-compact inserts, updates and deletes, in that order. -/
theorem C9_compact_agreement (pkeys : List (String × String)) (a b : Snapshot) :
    (∀ e, diffDumps pkeys a b true = Except.error e ↔
      diffDumps pkeys a b false = Except.error e) ∧
    (∀ out, diffDumps pkeys a b false = Except.ok out →
      diffDumps pkeys a b true = Except.ok (out.map fun p => (p.1, compactify p.2)) ∧
      (out.map fun p => (p.1, compactify p.2)).map Prod.fst = out.map Prod.fst ∧
      (∀ p ∈ out, ∃ td, p.2 = TableOut.full td) ∧
      (∀ t td, (t, TableOut.full td) ∈ out →
        (t, TableOut.compactCounts
            [td.inserts.length, td.updates.length, td.deletes.length]) ∈
          out.map fun p => (p.1, compactify p.2))) := by
  by_cases hk : sortedKeys a = sortedKeys b
  · have hce := diffGo_compact_eq pkeys a b
    constructor
    · intro e
      rw [diffDumps, diffDumps, if_pos hk, if_pos hk, hce]
      cases hr : diffGo pkeys a false b with
      | error e2 => simp
      | ok out2 => simp
    · intro out hout
      rw [diffDumps, if_pos hk] at hout
      refine ⟨?_, ?_, ?_, ?_⟩
      · rw [diffDumps, if_pos hk, hce, hout]
      · rw [List.map_map]
        rfl
      · exact diffGo_false_full pkeys a b out hout
      · intro t td hmem
        exact List.mem_map.mpr ⟨(t, TableOut.full td), hmem, rfl⟩
  · constructor
    · intro e
      rw [diffDumps, diffDumps, if_neg hk, if_neg hk]
    · intro out hout
      rw [diffDumps, if_neg hk] at hout
      exact absurd hout (by simp)

/-- Witness for C9: compact agreement on a concrete single-column update. -/
theorem C9_compact_agreement_witness :
    diffDumps [("t", "id")]
        [("t", [(Value.int 1, [("id", Value.int 1), ("x", Value.str "A")])])]
        [("t", [(Value.int 1, [("id", Value.int 1), ("x", Value.str "B")])])] true =
      Except.ok
        (([("t", TableOut.full ⟨[], [[("x", Value.str "B"), ("id", Value.int 1)]], []⟩)]
            : DiffOut).map fun p => (p.1, compactify p.2)) :=
  ((C9_compact_agreement [("t", "id")]
      [("t", [(Value.int 1, [("id", Value.int 1), ("x", Value.str "A")])])]
      [("t", [(Value.int 1, [("id", Value.int 1), ("x", Value.str "B")])])]).2
    [("t", TableOut.full ⟨[], [[("x", Value.str "B"), ("id", Value.int 1)]], []⟩)]
    rfl).1

end Gittip
